import Mathlib

/-!
Verification of the pipa device-support scripts (extract-files.py and
extract-firmware.py) against their natural-language specification.

The scripts are shallowly embedded: file contents are modelled as List Char
(text mode) or List UInt8 (binary mode); the Python string/bytes primitives
the scripts use (replace, strip, split, find, in, sorted, basename) are
reimplemented below with matching semantics, and each patch routine or
build-fragment generator becomes a pure Lean function over those models.
Fallible file operations are modelled with Except.
-/

set_option maxHeartbeats 1000000
set_option maxRecDepth 40000
set_option linter.unusedSectionVars false

namespace Pipa

/-! ## Generic string/bytes primitives (Python semantics) -/

variable {α : Type} [DecidableEq α]

/-- Python substring test p in s (also s.find(p) != -1): true iff p occurs
contiguously in s. -/
def subIn (p : List α) : List α → Bool
  | [] => p.isPrefixOf ([] : List α)
  | c :: t => p.isPrefixOf (c :: t) || subIn p t

/-- Python s.find(p, start): index of the first occurrence of p at or after
position i, scanning the given suffix; none models a -1 result. -/
def findSubAux (p : List α) : List α → Nat → Option Nat
  | [], i => if p.isPrefixOf ([] : List α) then some i else none
  | c :: t, i => if p.isPrefixOf (c :: t) then some i else findSubAux p t (i + 1)

/-- Number of positions of s at which p occurs (used to count device blocks
and checksum directives inside generated build fragments). -/
def countSub (p : List α) : List α → Nat
  | [] => if p.isPrefixOf ([] : List α) then 1 else 0
  | c :: t => (if p.isPrefixOf (c :: t) then 1 else 0) + countSub p t

/-- Python content.replace(pattern, replacement) for a nonempty pattern:
replace non-overlapping occurrences scanning left to right.  (The scripts
never call replace with an empty pattern; we return the input unchanged in
that degenerate case.)  Bounded-recursion worker: the fuel only ever needs the
input's length. -/
def replaceAllFuel (p r : List α) : Nat → List α → List α
  | _, [] => []
  | 0, s => s
  | fuel + 1, c :: t =>
    if p = [] then c :: t
    else if p.isPrefixOf (c :: t) then
      r ++ replaceAllFuel p r fuel ((c :: t).drop p.length)
    else c :: replaceAllFuel p r fuel t

/-- Python content.replace(pattern, replacement): each step either consumes a
whole occurrence of the nonempty pattern or one character, so the input's
length bounds the number of steps and serves as fuel. -/
def replaceAll (p r s : List α) : List α := replaceAllFuel p r s.length s

/-- Characters stripped by Python str.strip() with no argument. -/
def isPySpace (c : Char) : Bool :=
  c = ' ' || c = '\t' || c = '\n' || c = '\r' || c = '\x0b' || c = '\x0c'

/-- Python line.strip(): drop whitespace from both ends. -/
def pyStrip (s : List Char) : List Char :=
  ((s.dropWhile isPySpace).reverse.dropWhile isPySpace).reverse

/-- Python line.split() with no argument: split on runs of whitespace,
discarding empty pieces. -/
def pySplitWsFuel : Nat → List Char → List (List Char)
  | _, [] => []
  | 0, _ => []
  | fuel + 1, c :: t =>
    if isPySpace c then pySplitWsFuel fuel t
    else
      (c :: t).takeWhile (fun a => !isPySpace a)
        :: pySplitWsFuel fuel ((c :: t).dropWhile (fun a => !isPySpace a))

/-- Python line.split() with no argument: split on runs of whitespace,
discarding empty pieces; each step consumes at least one character, so the
input's length serves as fuel. -/
def pySplitWs (s : List Char) : List (List Char) := pySplitWsFuel s.length s

/-- Python os.path.basename for POSIX paths as used here: the part of the
string after the last slash. -/
def pyBasename (s : List Char) : List Char :=
  (s.reverse.takeWhile (fun c => c ≠ '/')).reverse

/-- Python s.split(sep) for a one-character separator: keeps empty pieces,
and the empty string yields one empty piece. -/
def splitOnChar (sep : Char) : List Char → List (List Char)
  | [] => [[]]
  | c :: t =>
    if c = sep then [] :: splitOnChar sep t
    else
      match splitOnChar sep t with
      | [] => [[c]]
      | w :: ws => (c :: w) :: ws

/-- Python s.lower() restricted to the ASCII range used by the scripts. -/
def pyLower (s : List Char) : List Char := s.map Char.toLower

/-- Code-point lexicographic comparison on character lists; this is how
Python compares strings. -/
def listLe : List Char → List Char → Bool
  | [], _ => true
  | _ :: _, [] => false
  | a :: as, b :: bs => if a = b then listLe as bs else decide (a < b)

/-- Python string comparison a <= b. -/
def pyLe (a b : String) : Bool := listLe a.data b.data

/-- Insertion step of the sort below. -/
def insertPy (x : String) : List String → List String
  | [] => [x]
  | y :: ys => if pyLe x y then x :: y :: ys else y :: insertPy x ys

/-- Model of Python sorted() on strings.  Insertion sort; since Python's
string order is total and antisymmetric, any correct comparison sort has
exactly this output, so the model is extensionally faithful. -/
def pySorted : List String → List String
  | [] => []
  | x :: xs => insertPy x (pySorted xs)

/-- The list is in nondecreasing Python string order. -/
def SortedPy (l : List String) : Prop := l.Pairwise (fun a b => pyLe a b = true)

/-- ASCII bytes of a string literal, for binary patterns written as text. -/
def strBytes (s : String) : List UInt8 := s.data.map (fun c => UInt8.ofNat c.toNat)

/-! ## extract-files.py: fix-up routines and dispatch table -/

/-- The rc line removed by BatterySecretRcFixup (the re.sub pattern at line 36
contains no regex metacharacters, so re.sub is literal removal of every
occurrence). -/
def seclabelLine : List Char := "seclabel u:r:batterysecret:s0\n".data

/-- Content transformation of BatterySecretRcFixup.run on the rc file: remove
every occurrence of the seclabel line. -/
def batterySecretPatch (content : List Char) : List Char :=
  replaceAll seclabelLine [] content

/-- Byte pattern sought by CameraPostprocFixup's direct binary patch. -/
def postprocPattern : List UInt8 := [0x9A, 0x0A, 0x00, 0x94]

/-- Replacement bytes written by CameraPostprocFixup's direct binary patch. -/
def postprocReplacement : List UInt8 := [0x1F, 0x20, 0x03, 0xD5]

/-- Content transformation of CameraPostprocFixup's direct binary patch
(lines 48-62): replace the pattern when present, otherwise leave the file
for the external sigscan fallback. -/
def cameraPostprocDirect (content : List UInt8) : List UInt8 :=
  if subIn postprocPattern content then
    replaceAll postprocPattern postprocReplacement content
  else content

/-- Primary pattern of CameraQcomFixup, written in hex in the source
(the bytes spell st_license.lic). -/
def qcomOrigPattern : List UInt8 :=
  [0x73, 0x74, 0x5F, 0x6C, 0x69, 0x63, 0x65, 0x6E, 0x73, 0x65, 0x2E, 0x6C, 0x69, 0x63]

/-- Replacement of CameraQcomFixup, written in hex in the source
(the bytes spell camera_cnf.txt). -/
def qcomReplacement : List UInt8 :=
  [0x63, 0x61, 0x6D, 0x65, 0x72, 0x61, 0x5F, 0x63, 0x6E, 0x66, 0x2E, 0x74, 0x78, 0x74]

/-- Alternative pattern of CameraQcomFixup, written as a bytes literal in the
source; its bytes coincide with the primary pattern. -/
def qcomAltPattern : List UInt8 := strBytes "st_license.lic"

/-- Replacement used on the alternative branch of CameraQcomFixup. -/
def qcomAltReplacement : List UInt8 := strBytes "camera_cnf.txt"

/-- Content transformation of CameraQcomFixup.run (lines 86-106): try the
primary pattern, then the alternative, else leave the file unchanged. -/
def cameraQcomPatch (content : List UInt8) : List UInt8 :=
  if subIn qcomOrigPattern content then
    replaceAll qcomOrigPattern qcomReplacement content
  else if subIn qcomAltPattern content then
    replaceAll qcomAltPattern qcomAltReplacement content
  else content

/-- State-level model of WatermarkFixup.run: the input says whether the binary
already declares the libpiex_shim.so dependency (the strings/grep check); when
it does the routine returns early, otherwise patchelf --add-needed adds it. -/
def watermarkEnsureShim (hasShim : Bool) : Bool :=
  if hasShim then hasShim else true

/-- Errors a patch routine can encounter while touching its file. -/
inductive PyError where
  | ioError
  | generic
  deriving DecidableEq

/-- Outcomes of the file operations a routine performs on its one target:
what reading the file yields, and whether writing it back raises. -/
structure TextIO where
  readResult : Except PyError (List Char)
  writeFails : Option PyError

/-- Binary-mode variant of TextIO. -/
structure BinIO where
  readResult : Except PyError (List UInt8)
  writeFails : Option PyError

/-- True when a routine terminated by raising instead of returning. -/
def isRaised {ε σ : Type} : Except ε σ → Bool
  | Except.error _ => true
  | Except.ok _ => false

/-- BatterySecretRcFixup.run (lines 30-39).  The body has no try/except, so a
failure of the read or the write propagates out of the routine; on success it
returns True together with the content written back. -/
def batterySecretRcRun (objFilePath : Option (List Char)) (io : TextIO) :
    Except PyError (Option (List Char) × Bool) :=
  match objFilePath with
  | none => Except.ok (none, true)
  | some _ =>
    match io.readResult with
    | Except.error e => Except.error e
    | Except.ok content =>
      match io.writeFails with
      | some e => Except.error e
      | none => Except.ok (some (batterySecretPatch content), true)

/-- CameraQcomFixup.run (lines 82-109).  The whole body sits inside
try/except Exception: pass, so every error is swallowed and the routine
returns True. -/
def cameraQcomRun (objFilePath : Option (List Char)) (io : BinIO) :
    Except PyError (Option (List UInt8) × Bool) :=
  match objFilePath with
  | none => Except.ok (none, true)
  | some _ =>
    match io.readResult with
    | Except.error _ => Except.ok (none, true)
    | Except.ok content =>
      if subIn qcomOrigPattern content then
        match io.writeFails with
        | some _ => Except.ok (none, true)
        | none => Except.ok (some (replaceAll qcomOrigPattern qcomReplacement content), true)
      else if subIn qcomAltPattern content then
        match io.writeFails with
        | some _ => Except.ok (none, true)
        | none => Except.ok (some (replaceAll qcomAltPattern qcomAltReplacement content), true)
      else Except.ok (none, true)

/-- The direct-patch attempt of CameraPostprocFixup.run (lines 48-62), whose
try/except Exception: pass swallows every error; the routine then proceeds to
the external sigscan fallback regardless. -/
def cameraPostprocDirectRun (io : BinIO) : Except PyError (Option (List UInt8)) :=
  match io.readResult with
  | Except.error _ => Except.ok none
  | Except.ok content =>
    if subIn postprocPattern content then
      match io.writeFails with
      | some _ => Except.ok none
      | none => Except.ok (some (replaceAll postprocPattern postprocReplacement content))
    else Except.ok none

/-- Names bound at the top level of extract-files.py before line 160 is
reached: the imports (lines 8-22) and the def/class statements (lines 25-157). -/
def extractFilesTopLevelNames : List String :=
  ["re", "os", "sys", "argparse", "subprocess", "shutil",
   "blob_fixup", "blob_fixups_user_type", "ExtractUtils", "ExtractUtilsModule",
   "is_command_available",
   "BatterySecretRcFixup", "CameraPostprocFixup", "CameraQcomFixup", "WatermarkFixup"]

/-- The blob_fixups dict literal (lines 160-166): each target path together
with the class name whose instantiation is its value. -/
def blobFixupsTable : List (String × String) :=
  [("vendor/etc/init/init.batterysecret.rc", "BatterySecretRcFixup"),
   ("vendor/lib/hw/audio.primary.pipa.so", "AudioPrimaryFixup"),
   ("vendor/lib64/vendor.qti.hardware.camera.postproc@1.0-service-impl.so",
     "CameraPostprocFixup"),
   ("vendor/lib64/hw/camera.qcom.so", "CameraQcomFixup"),
   ("vendor/lib64/camera/components/com.mi.node.watermark.so", "WatermarkFixup")]

/-- Evaluating the blob_fixups dict literal: Python resolves each value's class
name against the module's bound names, raising NameError at the first unbound
one; on success the table is built. -/
def evalBlobFixups : Except String (List (String × String)) :=
  match (blobFixupsTable.map Prod.snd).find?
      (fun n => !(extractFilesTopLevelNames.contains n)) with
  | some n => Except.error n
  | none => Except.ok blobFixupsTable

/-- Modelled from the spec: the class AudioPrimaryFixup bound to
vendor/lib/hw/audio.primary.pipa.so is referenced by the dispatch table at
line 162 but no definition for it appears anywhere in the source; per the
spec (section 4.1) the routine replaces a fixed ASCII byte sequence naming a
shared-library path with a fixed-length replacement padded with null bytes.
The pattern and the unpadded replacement are left as parameters since the
source does not fix them; the padding brings the replacement to exactly the
pattern's length. -/
def audioPrimaryRun (pat repl content : List UInt8) : List UInt8 :=
  replaceAll pat (repl ++ List.replicate (pat.length - repl.length) 0) content

/-- Substring patterns whose presence in a path makes is_dolby_file
(lines 169-178) return True. -/
def dolbyPatterns : List (List Char) :=
  ["dolby".data, "Dolby".data, "DOLBY".data, "dax".data, "DAX".data, "Dax".data]

/-- is_dolby_file (lines 169-178): does the path contain any Dolby pattern. -/
def isDolbyFile (filePath : List Char) : Bool :=
  dolbyPatterns.any (fun p => subIn p filePath)

/-- Semantics of an argparse store_true flag with an explicit default: the
destination holds the default when the flag is absent and the constant True
when it is present. -/
def storeTrueFlag (dflt : Bool) (presentOnCmdline : Bool) : Bool :=
  if presentOnCmdline then true else dflt

/-- Value of args.ignore_missing_dolby: the flag is declared at lines 191-192
with action=store_true and default=True. -/
def ignoreMissingDolbyValue (presentOnCmdline : Bool) : Bool :=
  storeTrueFlag true presentOnCmdline

/-- Observable outcome of the driver's FileNotFoundError handler. -/
structure FnfOutcome where
  printsError : Bool
  exitsNonZero : Bool
  deriving DecidableEq

/-- The FileNotFoundError handler of the device-extraction run
(lines 273-291): the error message is suppressed for Dolby files when the
tolerance flag is set; with a section the driver retries makefile generation
and exits non-zero only if that fails; without one it exits non-zero unless
the tolerance flag is set and the lowercased message mentions dolby. -/
def fnfHandler (ignoreMissingDolby : Bool) (errMsg : List Char)
    (sectionGiven quiet writeMakefilesOk : Bool) : FnfOutcome :=
  let prints :=
    if ignoreMissingDolby && isDolbyFile errMsg then false else !quiet
  let exits :=
    if sectionGiven then !writeMakefilesOk
    else !(ignoreMissingDolby && subIn "dolby".data (pyLower errMsg))
  ⟨prints, exits⟩

/-! ## extract-firmware.py: firmware list parsing and build fragments -/

/-- One iteration of the firmware-list reading loop (lines 56-66): strip the
line, skip it when empty or a comment, else record the basename of its first
whitespace-delimited token. -/
def parseFirmwareLine (line : List Char) : Option (List Char) :=
  let l := pyStrip line
  if l.isEmpty || l.head? == some '#' then none
  else
    match pySplitWs l with
    | [] => none
    | t :: _ => some (pyBasename t)

/-- The firmware_files list built from proprietary-firmware.txt
(lines 54-66). -/
def parseFirmwareList (lines : List (List Char)) : List (List Char) :=
  lines.filterMap parseFirmwareLine

/-- The device conditional line of the checksum-manifest fragment. -/
def deviceCond (device : String) : List Char :=
  ("ifeq ($(TARGET_DEVICE)," ++ device ++ ")").data

/-- One checksum directive of the Android.mk fragment (lines 155, 182, 205). -/
def radioLine (filename sha1 : String) : String :=
  "$(call add-radio-file-sha1-checked,radio/" ++ filename ++ "," ++ sha1 ++ ")\n"

/-- Leading text of a freshly created Android.mk (lines 143-151), with the
vendor and device names substituted. -/
def androidMkHeader (vendor device : String) : String :=
  "# Automatically generated file. DO NOT MODIFY\n#\n# This file is generated by device/"
    ++ vendor ++ "/" ++ device
    ++ "/extract-firmware.py\n\nLOCAL_PATH := $(call my-dir)\n\nifeq ($(TARGET_DEVICE),"
    ++ device ++ ")\n\n"

/-- A freshly created Android.mk (lines 141-162 and the identical fallback at
lines 191-212): header, one directive per entry, then the closing endif. -/
def freshAndroidMk (vendor device : String) (entries : List (String × String)) :
    List Char :=
  (androidMkHeader vendor device
    ++ String.join (entries.map (fun e => radioLine e.1 e.2))
    ++ "\nendif").data

/-- The radio_section text inserted into an existing block (lines 180-182). -/
def radioSection (entries : List (String × String)) : List Char :=
  ("\n\n" ++ String.join (entries.map (fun e => radioLine e.1 e.2))).data

/-- The Android.mk update of one firmware-import run (lines 121-212), as a
function from the previous file content (none when the file does not exist)
and the checksum entries to the content written back. -/
def updateAndroidMk (vendor device : String) (existing : Option (List Char))
    (entries : List (String × String)) : List Char :=
  match existing with
  | none => freshAndroidMk vendor device entries
  | some content =>
    if subIn (deviceCond device) content then
      match findSubAux (deviceCond device) content 0 with
      | none => freshAndroidMk vendor device entries
      | some dp =>
        match findSubAux ("endif".data) (content.drop dp) dp with
        | none => freshAndroidMk vendor device entries
        | some _ =>
          let ip := dp + (deviceCond device).length
          content.take ip ++ radioSection entries ++ content.drop ip
    else freshAndroidMk vendor device entries

/-- The existing_partitions parse (lines 262-268): split the matched group on
newlines, strip each line, keep nonempty ones with the trailing
line-continuation backslash removed. -/
def parseExistingPartitions (group : List Char) : List String :=
  (splitOnChar '\n' group).foldl
    (fun acc line =>
      let l := pyStrip line
      if !l.isEmpty && !(l.getLast? == some '\\') then acc ++ [⟨l⟩]
      else if !l.isEmpty then acc ++ [⟨pyStrip l.dropLast⟩]
      else acc)
    []

/-- The partition-list merge of one firmware-import run (lines 270-280,
before formatting): drop the new names already listed, and when any remain,
sort the concatenation; when none remain the file is left untouched. -/
def mergePartitions (existing newNames : List String) : List String :=
  let newParts := newNames.filter (fun p => !existing.contains p)
  if newParts.isEmpty then existing else pySorted (existing ++ newParts)

/-- The rewritten AB_OTA_PARTITIONS section (lines 275-280): the header line,
one indented continuation line per partition, and the final [:-2] slice that
removes the last entry's trailing continuation marker. -/
def buildNewSection (parts : List String) : List Char :=
  (("AB_OTA_PARTITIONS += \\"
      ++ String.join (parts.map (fun p => "\n    " ++ p ++ " \\"))).data).dropLast.dropLast

/-- The merged section text produced when at least one new partition name
survives the duplicate filter (lines 271-280). -/
def mergedSection (existing newNames : List String) : List Char :=
  buildNewSection (pySorted (existing ++ newNames.filter (fun p => !existing.contains p)))

/-- One checksum directive as a line of the fragment, without its
terminating newline (radioLine f h is exactly this line followed by a
newline). -/
def directiveLine (filename sha1 : String) : List Char :=
  ("$(call add-radio-file-sha1-checked,radio/" ++ filename ++ "," ++ sha1 ++ ")").data

/-- The lines of a fragment, as Python content.split chr 10 produces them. -/
def linesOf (s : List Char) : List (List Char) := splitOnChar '\n' s

/-- How many lines of the fragment equal the given line; counting full lines
formalizes "number of device conditional blocks" and "number of directives
naming a file", since both constructs occupy a line of their own. -/
def lineCount (l : List Char) (s : List Char) : Nat := (linesOf s).count l

/-! ## Properties of the string primitives -/

theorem subIn_iff (p s : List α) : subIn p s = true ↔ p <:+: s := by
  induction s with
  | nil =>
    simp [subIn, List.isPrefixOf_iff_prefix]
  | cons c t ih =>
    simp only [subIn, Bool.or_eq_true, List.isPrefixOf_iff_prefix, ih]
    exact ( List.infix_cons_iff).symm

theorem replaceAllFuel_congr (p r : List α) :
    ∀ f1 f2 s, s.length ≤ f1 → s.length ≤ f2 →
      replaceAllFuel p r f1 s = replaceAllFuel p r f2 s := by
  intro f1
  induction f1 with
  | zero =>
    intro f2 s h1 _
    have : s = [] := List.length_eq_zero.mp (Nat.le_zero.mp h1)
    subst this
    cases f2 <;> rfl
  | succ g1 ih =>
    intro f2 s h1 h2
    cases s with
    | nil => cases f2 <;> rfl
    | cons c t =>
      cases f2 with
      | zero => simp at h2
      | succ g2 =>
        simp only [replaceAllFuel]
        by_cases hp : p = []
        · rw [if_pos hp, if_pos hp]
        · rw [if_neg hp, if_neg hp]
          by_cases hpre : p.isPrefixOf (c :: t) = true
          · rw [if_pos hpre, if_pos hpre]
            have hlp : 0 < p.length := List.length_pos.mpr hp
            have hd1 : ((c :: t).drop p.length).length ≤ g1 := by
              simp only [List.length_drop, List.length_cons]
              simp only [List.length_cons] at h1
              omega
            have hd2 : ((c :: t).drop p.length).length ≤ g2 := by
              simp only [List.length_drop, List.length_cons]
              simp only [List.length_cons] at h2
              omega
            rw [ih _ _ hd1 hd2]
          · rw [if_neg hpre, if_neg hpre]
            have ht1 : t.length ≤ g1 := by
              simp only [List.length_cons] at h1
              omega
            have ht2 : t.length ≤ g2 := by
              simp only [List.length_cons] at h2
              omega
            rw [ih _ _ ht1 ht2]

theorem replaceAll_empty_pat (r s : List α) : replaceAll [] r s = s := by
  cases s <;> simp [replaceAll, replaceAllFuel]

theorem replaceAll_nil (p r : List α) : replaceAll p r [] = [] := rfl

theorem replaceAll_pos (p r s : List α) (hp : p ≠ []) (h : p <+: s) :
    replaceAll p r s = r ++ replaceAll p r (s.drop p.length) := by
  cases s with
  | nil => exact absurd ( List.prefix_nil.mp h) hp
  | cons c t =>
    show replaceAllFuel p r (t.length + 1) (c :: t) = _
    rw [replaceAllFuel, if_neg hp, if_pos ( List.isPrefixOf_iff_prefix.mpr h)]
    have hlp : 0 < p.length := List.length_pos.mpr hp
    have hd : ((c :: t).drop p.length).length ≤ t.length := by
      simp only [List.length_drop, List.length_cons]
      omega
    rw [replaceAllFuel_congr p r t.length ((c :: t).drop p.length).length _ hd le_rfl]
    rfl

theorem replaceAll_neg (p r : List α) (c : α) (t : List α) (hp : p ≠ [])
    (h : ¬ p <+: (c :: t)) : replaceAll p r (c :: t) = c :: replaceAll p r t := by
  show replaceAllFuel p r (t.length + 1) (c :: t) = _
  rw [replaceAllFuel, if_neg hp,
    if_neg (fun hb => h ( List.isPrefixOf_iff_prefix.mp hb))]
  rfl

theorem replaceAll_of_not_sub (p r s : List α) (h : ¬ p <:+: s) :
    replaceAll p r s = s := by
  induction s with
  | nil => exact replaceAll_nil p r
  | cons c t ih =>
    have hp : p ≠ [] := by
      rintro rfl
      exact h List.nil_infix
    have hpre : ¬ p <+: (c :: t) := fun hx => h hx.isInfix
    rw [replaceAll_neg p r c t hp hpre,
      ih (fun hi => h (( List.infix_cons_iff).mpr (Or.inr hi)))]

theorem replaceAll_length (p r : List α) (hpr : p.length = r.length) (s : List α) :
    (replaceAll p r s).length = s.length := by
  have main : ∀ n (s : List α), s.length ≤ n → (replaceAll p r s).length = s.length := by
    intro n
    induction n with
    | zero =>
      intro s hs
      have : s = [] := List.eq_nil_of_length_eq_zero (Nat.le_zero.mp hs)
      subst this
      rw [replaceAll_nil]
    | succ n ih =>
      intro s hs
      by_cases hp : p = []
      · rw [hp, replaceAll_empty_pat]
      · by_cases hpre : p <+: s
        · rw [replaceAll_pos p r s hp hpre]
          have h0 : 0 < p.length := List.length_pos.mpr hp
          have h1 : p.length ≤ s.length := hpre.length_le
          have h2 : (s.drop p.length).length ≤ n := by
            simp only [List.length_drop]
            omega
          rw [List.length_append, ih _ h2]
          simp only [List.length_drop]
          omega
        · cases s with
          | nil => rw [replaceAll_nil]
          | cons c t =>
            rw [replaceAll_neg p r c t hp hpre]
            simp only [List.length_cons] at hs ⊢
            rw [ih t (by omega)]
  exact main s.length s le_rfl

theorem not_sub_append_left (p x r' : List α) (hp : p ≠ [])
    (hdis : ∀ a ∈ r', a ∉ p) (hx : ¬ p <:+: x) : ¬ p <:+: (r' ++ x) := by
  induction r' with
  | nil => simpa using hx
  | cons a r'' ih =>
    intro hcon
    rcases ( List.infix_cons_iff).mp hcon with hpre | hrest
    · cases p with
      | nil => exact hp rfl
      | cons p0 p' =>
        have := (List.cons_prefix_cons.mp hpre).1
        subst this
        exact hdis p0 (List.mem_cons_self _ _) (List.mem_cons_self _ _)
    · exact ih (fun b hb => hdis b (List.mem_cons_of_mem _ hb)) hrest

theorem pull_back_through_replaceAll (p r : List α) (hr : r ≠ [])
    (hdis : ∀ a ∈ r, a ∉ p) :
    ∀ n (t q : List α), t.length ≤ n → q ≠ [] → (∀ a ∈ q, a ∈ p) →
      q <+: replaceAll p r t → q <+: t := by
  intro n
  induction n with
  | zero =>
    intro t q ht hq _ hpre
    have : t = [] := List.eq_nil_of_length_eq_zero (Nat.le_zero.mp ht)
    subst this
    rw [replaceAll_nil] at hpre
    exact absurd ( List.prefix_nil.mp hpre) hq
  | succ n ih =>
    intro t q ht hq hqp hpre
    by_cases hp : p = []
    · rwa [hp, replaceAll_empty_pat] at hpre
    · by_cases hpret : p <+: t
      · rw [replaceAll_pos p r t hp hpret] at hpre
        cases q with
        | nil => exact absurd rfl hq
        | cons q0 q' =>
          cases r with
          | nil => exact absurd rfl hr
          | cons r0 r'' =>
            have h0 : q0 = r0 := (List.cons_prefix_cons.mp (by simpa using hpre)).1
            subst h0
            exact absurd (hqp q0 (List.mem_cons_self _ _))
              (hdis q0 (List.mem_cons_self _ _))
      · cases t with
        | nil =>
          rw [replaceAll_nil] at hpre
          exact absurd ( List.prefix_nil.mp hpre) hq
        | cons c t' =>
          rw [replaceAll_neg p r c t' hp hpret] at hpre
          cases q with
          | nil => exact absurd rfl hq
          | cons q0 q' =>
            obtain ⟨hq0, hq'⟩ := List.cons_prefix_cons.mp hpre
            subst hq0
            cases hq'' : q' with
            | nil =>
              simp [hq'']
            | cons a as =>
              subst hq''
              have hmem : ∀ b ∈ (a :: as), b ∈ p := fun b hb =>
                hqp b (List.mem_cons_of_mem _ hb)
              have ht' : t'.length ≤ n := by
                simp only [List.length_cons] at ht
                omega
              have := ih t' (a :: as) ht' (by simp) hmem hq'
              exact List.cons_prefix_cons.mpr ⟨rfl, this⟩

theorem not_sub_replaceAll (p r : List α) (hp : p ≠ []) (hr : r ≠ [])
    (hdis : ∀ a ∈ r, a ∉ p) (s : List α) : ¬ p <:+: replaceAll p r s := by
  have main : ∀ n (s : List α), s.length ≤ n → ¬ p <:+: replaceAll p r s := by
    intro n
    induction n with
    | zero =>
      intro s hs
      have : s = [] := List.length_eq_zero.mp (Nat.le_zero.mp hs)
      subst this
      rw [replaceAll_nil]
      intro hcon
      exact hp ( List.infix_nil.mp hcon)
    | succ n ih =>
      intro s hs
      by_cases hpre : p <+: s
      · rw [replaceAll_pos p r s hp hpre]
        have h0 : 0 < p.length := List.length_pos.mpr hp
        have h1 : p.length ≤ s.length := hpre.length_le
        have hrec : ¬ p <:+: replaceAll p r (s.drop p.length) :=
          ih _ (by simp only [List.length_drop]; omega)
        exact not_sub_append_left p _ r hp hdis hrec
      · cases s with
        | nil =>
          rw [replaceAll_nil]
          intro hcon
          exact hp ( List.infix_nil.mp hcon)
        | cons c t =>
          rw [replaceAll_neg p r c t hp hpre]
          intro hcon
          rcases ( List.infix_cons_iff).mp hcon with hx | hx
          · cases p with
            | nil => exact hp rfl
            | cons p0 p' =>
              obtain ⟨hp0, hp'⟩ := List.cons_prefix_cons.mp hx
              subst hp0
              cases hcase : p' with
              | nil =>
                subst hcase
                exact hpre (List.cons_prefix_cons.mpr ⟨rfl, List.nil_prefix⟩)
              | cons a as =>
                subst hcase
                have hmem : ∀ b ∈ (a :: as), b ∈ p0 :: a :: as := fun b hb =>
                  List.mem_cons_of_mem _ hb
                have ht : t.length ≤ n := by
                  simp only [List.length_cons] at hs
                  omega
                have hpull := pull_back_through_replaceAll (p0 :: a :: as) r hr hdis
                  n t (a :: as) ht (by simp) hmem hp'
                exact hpre (List.cons_prefix_cons.mpr ⟨rfl, hpull⟩)
          · exact ih t (by simp only [List.length_cons] at hs; omega) hx
  exact main s.length s le_rfl

/-! ## Properties of the sort model -/

theorem insertPy_perm (x : String) (l : List String) : List.Perm (insertPy x l) (x :: l) := by
  induction l with
  | nil => exact List.Perm.refl _
  | cons y ys ih =>
    simp only [insertPy]
    by_cases h : pyLe x y = true
    · rw [if_pos h]
    · rw [if_neg h]
      exact (ih.cons y).trans (List.Perm.swap x y ys)

theorem pySorted_perm (l : List String) : List.Perm (pySorted l) l := by
  induction l with
  | nil => exact List.Perm.refl _
  | cons x xs ih => exact (insertPy_perm x (pySorted xs)).trans (ih.cons x)

theorem listLe_total (a b : List Char) : listLe a b = true ∨ listLe b a = true := by
  induction a generalizing b with
  | nil => exact Or.inl rfl
  | cons x as ih =>
    cases b with
    | nil => exact Or.inr rfl
    | cons y bs =>
      by_cases hxy : x = y
      · subst hxy
        rcases ih bs with h | h
        · left
          simpa [listLe] using h
        · right
          simpa [listLe] using h
      · rcases lt_trichotomy x y with h | h | h
        · left
          simp [listLe, hxy, h]
        · exact absurd h hxy
        · right
          have hyx : ¬ y = x := fun he => hxy he.symm
          simp [listLe, hyx, h]

theorem listLe_trans :
    ∀ a b c : List Char, listLe a b = true → listLe b c = true → listLe a c = true := by
  intro a
  induction a with
  | nil => intro b c _ _; rfl
  | cons x as ih =>
    intro b c hab hbc
    cases b with
    | nil => simp [listLe] at hab
    | cons y bs =>
      cases c with
      | nil => simp [listLe] at hbc
      | cons z cs =>
        by_cases hxy : x = y
        · subst hxy
          by_cases hyz : x = z
          · subst hyz
            simp only [listLe, if_pos rfl] at hab hbc ⊢
            exact ih bs cs hab hbc
          · simp only [listLe, if_neg hyz] at hbc ⊢
            exact hbc
        · have hlt : x < y := by
            have := hab
            simp only [listLe, if_neg hxy, decide_eq_true_eq] at this
            exact this
          by_cases hyz : y = z
          · subst hyz
            simp only [listLe, if_neg hxy, decide_eq_true_eq]
            exact hlt
          · have hyz' : y < z := by
              have := hbc
              simp only [listLe, if_neg hyz, decide_eq_true_eq] at this
              exact this
            have hxz : x < z := lt_trans hlt hyz'
            have hne : ¬ x = z := ne_of_lt hxz
            simp only [listLe, if_neg hne, decide_eq_true_eq]
            exact hxz

theorem pyLe_total (a b : String) : pyLe a b = true ∨ pyLe b a = true :=
  listLe_total a.data b.data

theorem pyLe_trans (a b c : String) :
    pyLe a b = true → pyLe b c = true → pyLe a c = true :=
  listLe_trans a.data b.data c.data

theorem insertPy_sorted (x : String) (l : List String) (hl : SortedPy l) :
    SortedPy (insertPy x l) := by
  induction l with
  | nil => simp [insertPy, SortedPy]
  | cons y ys ih =>
    unfold SortedPy at hl ih ⊢
    rw [List.pairwise_cons] at hl
    obtain ⟨hy, hys⟩ := hl
    by_cases h : pyLe x y = true
    · simp only [insertPy, if_pos h]
      rw [List.pairwise_cons]
      refine ⟨?_, ?_⟩
      · intro z hz
        rcases List.mem_cons.mp hz with rfl | hz'
        · exact h
        · exact pyLe_trans x y z h (hy z hz')
      · rw [List.pairwise_cons]
        exact ⟨hy, hys⟩
    · have hyx : pyLe y x = true := (pyLe_total x y).resolve_left h
      simp only [insertPy, if_neg h]
      rw [List.pairwise_cons]
      refine ⟨?_, ih hys⟩
      intro z hz
      have hz2 : z ∈ x :: ys := (insertPy_perm x ys).mem_iff.mp hz
      rcases List.mem_cons.mp hz2 with rfl | hz'
      · exact hyx
      · exact hy z hz'

theorem pySorted_sorted (l : List String) : SortedPy (pySorted l) := by
  induction l with
  | nil => exact List.Pairwise.nil
  | cons x xs ih => exact insertPy_sorted x (pySorted xs) ih

/-! ## Properties of substring search and line splitting -/

theorem findSubAux_ge (p : List α) :
    ∀ (s : List α) (i j : Nat), findSubAux p s i = some j → i ≤ j := by
  intro s
  induction s with
  | nil =>
    intro i j h
    simp only [findSubAux] at h
    split at h
    · cases h
      exact le_rfl
    · cases h
  | cons c t ih =>
    intro i j h
    simp only [findSubAux] at h
    split at h
    · cases h
      exact le_rfl
    · exact Nat.le_of_succ_le (ih (i + 1) j h)

theorem sub_of_append_of_le (p x y : List α) (hle : p.length ≤ x.length)
    (h : p <+: x ++ y) : p <+: x := by
  have h1 : p = (x ++ y).take p.length := List.prefix_iff_eq_take.mp h
  rw [List.take_append_eq_append_take, Nat.sub_eq_zero_of_le hle,
    List.take_zero, List.append_nil] at h1
  exact h1 ▸ List.take_prefix p.length x

theorem findSubAux_append_left (p : List α) :
    ∀ (a b : List α) (i j : Nat), findSubAux p a i = some j →
      j - i + p.length ≤ a.length → findSubAux p (a ++ b) i = some j := by
  intro a
  induction a with
  | nil =>
    intro b i j h _
    simp only [findSubAux] at h
    split at h
    · rename_i hp
      cases h
      have hp' : p = [] := List.prefix_nil.mp (List.isPrefixOf_iff_prefix.mp hp)
      subst hp'
      cases b with
      | nil => simp [findSubAux]
      | cons c t => simp [findSubAux, List.isPrefixOf_iff_prefix]
    · cases h
  | cons c t ih =>
    intro b i j h hfit
    simp only [findSubAux] at h
    split at h
    · rename_i hp
      cases h
      have hp' : p <+: (c :: t) ++ b :=
        (List.isPrefixOf_iff_prefix.mp hp).trans (List.prefix_append _ _)
      have : findSubAux p (c :: (t ++ b)) i = some i := by
        simp only [findSubAux]
        rw [if_pos (List.isPrefixOf_iff_prefix.mpr (by simpa using hp'))]
      simpa using this
    · rename_i hp
      have hij : i + 1 ≤ j := findSubAux_ge p t (i + 1) j h
      have hlen : p.length ≤ t.length + 1 := by
        simp only [List.length_cons] at hfit
        omega
      have hnot : ¬ p.isPrefixOf (c :: (t ++ b)) = true := by
        intro hcon
        have hsub : p <+: (c :: t) :=
          sub_of_append_of_le p (c :: t) b (by simpa using hlen)
            (by simpa using List.isPrefixOf_iff_prefix.mp hcon)
        exact hp (List.isPrefixOf_iff_prefix.mpr hsub)
      have hrec := ih b (i + 1) j h
        (by simp only [List.length_cons] at hfit; omega)
      have : findSubAux p (c :: (t ++ b)) i = some j := by
        simp only [findSubAux]
        rw [if_neg hnot]
        exact hrec
      simpa using this

theorem findSubAux_eq_none_iff (p : List α) :
    ∀ (s : List α) (i : Nat), findSubAux p s i = none ↔ ¬ p <:+: s := by
  intro s
  induction s with
  | nil =>
    intro i
    constructor
    · intro h hcon
      have hp : p = [] := List.infix_nil.mp hcon
      subst hp
      simp [findSubAux] at h
    · intro h
      simp only [findSubAux]
      rw [if_neg (fun hp => h (List.isPrefixOf_iff_prefix.mp hp).isInfix)]
  | cons c t ih =>
    intro i
    simp only [findSubAux]
    constructor
    · intro h hcon
      split at h
      · cases h
      · rename_i hnp
        rcases ( List.infix_cons_iff).mp hcon with hx | hx
        · exact hnp (List.isPrefixOf_iff_prefix.mpr hx)
        · exact ((ih (i + 1)).mp h) hx
    · intro h
      rw [if_neg (fun hp => h (List.isPrefixOf_iff_prefix.mp hp).isInfix)]
      exact (ih (i + 1)).mpr (fun hx => h (( List.infix_cons_iff).mpr (Or.inr hx)))

theorem splitOnChar_sep_cons (sep : Char) (x : List Char) :
    splitOnChar sep (sep :: x) = [] :: splitOnChar sep x := by
  simp [splitOnChar]

theorem splitOnChar_line_append (sep : Char) (l x : List Char) (hl : sep ∉ l) :
    splitOnChar sep (l ++ sep :: x) = l :: splitOnChar sep x := by
  induction l with
  | nil => simpa using splitOnChar_sep_cons sep x
  | cons c l' ih =>
    have hc : ¬ c = sep := fun he => hl (he ▸ List.mem_cons_self c l')
    have hl' : sep ∉ l' := fun hm => hl (List.mem_cons_of_mem c hm)
    have harr : (c :: l') ++ sep :: x = c :: (l' ++ sep :: x) := by simp
    rw [harr, splitOnChar, if_neg hc, ih hl']

theorem splitOnChar_of_not_mem (sep : Char) (l : List Char) (hl : sep ∉ l) :
    splitOnChar sep l = [l] := by
  induction l with
  | nil => rfl
  | cons c l' ih =>
    have hc : ¬ c = sep := fun he => hl (he ▸ List.mem_cons_self c l')
    have hl' : sep ∉ l' := fun hm => hl (List.mem_cons_of_mem c hm)
    rw [splitOnChar, if_neg hc, ih hl']

theorem splitOnChar_flat_lines (sep : Char) :
    ∀ (L : List (List Char)) (x : List Char), (∀ l ∈ L, sep ∉ l) →
      splitOnChar sep ((L.map (fun l => l ++ [sep])).flatten ++ x)
        = L ++ splitOnChar sep x := by
  intro L
  induction L with
  | nil =>
    intro x _
    simp
  | cons l L' ih =>
    intro x hmem
    have hl : sep ∉ l := hmem l (List.mem_cons_self _ _)
    have hL' : ∀ l' ∈ L', sep ∉ l' := fun l' hm => hmem l' (List.mem_cons_of_mem _ hm)
    have harr : (((l :: L').map (fun l => l ++ [sep])).flatten ++ x)
        = l ++ (sep :: ((L'.map (fun l => l ++ [sep])).flatten ++ x)) := by
      simp
    rw [harr, splitOnChar_line_append sep l _ hl, ih x hL']
    rfl

theorem foldl_append_data :
    ∀ (l : List String) (s : String),
      (l.foldl (· ++ ·) s).data = s.data ++ (l.map String.data).flatten := by
  intro l
  induction l with
  | nil =>
    intro s
    simp
  | cons a l' ih =>
    intro s
    simp only [List.foldl_cons, List.map_cons, List.flatten_cons]
    rw [ih (s ++ a)]
    simp [List.append_assoc]

theorem radioLine_data (f h : String) :
    (radioLine f h).data = directiveLine f h ++ ['\n'] := by
  simp [radioLine, directiveLine, String.data_append, List.append_assoc]

theorem join_radioLines (entries : List (String × String)) :
    (String.join (entries.map (fun e => radioLine e.1 e.2))).data
      = ((entries.map (fun e => directiveLine e.1 e.2)).map
          (fun l => l ++ ['\n'])).flatten := by
  unfold String.join
  rw [foldl_append_data]
  simp only [List.map_map]
  have hfun : (String.data ∘ fun e : String × String => radioLine e.1 e.2)
      = ((fun l => l ++ ['\n']) ∘ fun e : String × String => directiveLine e.1 e.2) := by
    funext e
    exact radioLine_data e.1 e.2
  rw [hfun]
  rfl

theorem directiveLine_head (f h : String) :
    (directiveLine f h).head? = some '$' := by
  have hA : ("$(call add-radio-file-sha1-checked,radio/" : String).data
      = '$' :: ("(call add-radio-file-sha1-checked,radio/" : String).data := by decide
  simp [directiveLine, String.data_append, hA]

theorem not_nl_directiveLine (f h : String) (hf : ('\n' : Char) ∉ f.data)
    (hh : ('\n' : Char) ∉ h.data) : ('\n' : Char) ∉ directiveLine f h := by
  have hA : ('\n' : Char) ∉ ("$(call add-radio-file-sha1-checked,radio/" : String).data := by
    decide
  have hB : ('\n' : Char) ∉ ("," : String).data := by decide
  have hC : ('\n' : Char) ∉ (")" : String).data := by decide
  intro hcon
  simp only [directiveLine, String.data_append, List.mem_append] at hcon
  tauto

theorem ne_of_head_ne (x y : List Char) (h : x.head? ≠ y.head?) : x ≠ y :=
  fun he => h (he ▸ rfl)

theorem splitOnChar_mk_shape (sep : Char) (a1 a2 a3 a5 a7 aend : List Char)
    (D1 D2 : List (List Char))
    (h1 : sep ∉ a1) (h2 : sep ∉ a2) (h3 : sep ∉ a3) (h5 : sep ∉ a5)
    (h7 : sep ∉ a7) (hend : sep ∉ aend)
    (hD1 : ∀ l ∈ D1, sep ∉ l) (hD2 : ∀ l ∈ D2, sep ∉ l) :
    splitOnChar sep
      (((a1 ++ sep :: (a2 ++ sep :: (a3 ++ sep :: (sep :: (a5 ++ sep :: (sep :: a7))))))
          ++ (sep :: sep :: (D1.map (fun l => l ++ [sep])).flatten))
        ++ ([sep, sep] ++ ((D2.map (fun l => l ++ [sep])).flatten ++ sep :: aend)))
      = a1 :: a2 :: a3 :: [] :: a5 :: [] :: a7
          :: [] :: (D1 ++ [] :: [] :: (D2 ++ [[], aend])) := by
  rw [List.append_assoc]
  rw [List.append_assoc, List.cons_append, splitOnChar_line_append sep a1 _ h1]
  rw [List.append_assoc, List.cons_append, splitOnChar_line_append sep a2 _ h2]
  rw [List.append_assoc, List.cons_append, splitOnChar_line_append sep a3 _ h3]
  rw [List.cons_append, splitOnChar_sep_cons]
  rw [List.append_assoc, List.cons_append, splitOnChar_line_append sep a5 _ h5]
  rw [List.cons_append, splitOnChar_sep_cons]
  rw [List.cons_append, splitOnChar_line_append sep a7 _ h7]
  rw [List.cons_append, splitOnChar_sep_cons]
  rw [splitOnChar_flat_lines sep D1 _ hD1]
  rw [List.cons_append, splitOnChar_sep_cons]
  rw [List.cons_append, splitOnChar_sep_cons]
  rw [List.nil_append]
  rw [splitOnChar_flat_lines sep D2 _ hD2]
  rw [splitOnChar_sep_cons]
  rw [splitOnChar_of_not_mem sep aend hend]

/-! ## Claim theorems -/

/-- C1: the claim states that evaluating the module-level blob_fixups dispatch
table succeeds because every referenced fix-up class name is bound.  The code
contradicts it: the table (line 162) references AudioPrimaryFixup, which no
class statement or import in extract-files.py defines, so Python raises
NameError while the dict literal is evaluated and every extraction run aborts
at import time.  This theorem evaluates the embedded name resolution at that
point. -/
theorem claim1_blob_fixups_name_error :
    evalBlobFixups = Except.error "AudioPrimaryFixup" ∧
    "AudioPrimaryFixup" ∉ extractFilesTopLevelNames := by
  exact ⟨rfl, by decide⟩

/-- C2 counterexample: BatterySecretRcFixup.run has no exception handler, so
an I/O error raised while reading the rc file propagates out of the routine
instead of being caught; the claim that every routine catches unexpected
errors and returns success is therefore false. -/
theorem claim2_counterexample :
    batterySecretRcRun (some "vendor/etc/init/init.batterysecret.rc".data)
      ⟨Except.error PyError.ioError, none⟩ = Except.error PyError.ioError := rfl

/-- C2 (amended): CameraQcomFixup.run and CameraPostprocFixup's direct patch
attempt wrap their file accesses in try/except Exception and never raise,
returning success whatever the I/O outcome; BatterySecretRcFixup.run has no
handler and propagates any read error. -/
theorem claim2_amended_error_containment :
    (∀ (path : Option (List Char)) (io : BinIO),
      isRaised (cameraQcomRun path io) = false) ∧
    (∀ io : BinIO, isRaised (cameraPostprocDirectRun io) = false) ∧
    (∀ (p : List Char) (e : PyError) (w : Option PyError),
      batterySecretRcRun (some p) ⟨Except.error e, w⟩ = Except.error e) := by
  refine ⟨?_, ?_, ?_⟩
  · rintro (_ | p) ⟨rr, wf⟩
    · rfl
    · cases rr with
      | error e => rfl
      | ok content =>
        simp only [cameraQcomRun]
        split
        · cases wf <;> rfl
        · split
          · cases wf <;> rfl
          · rfl
  · rintro ⟨rr, wf⟩
    cases rr with
    | error e => rfl
    | ok content =>
      simp only [cameraPostprocDirectRun]
      split
      · cases wf <;> rfl
      · rfl
  · intro p e w
    rfl

/-- C3 (spec-modelled): the routine bound to vendor/lib/hw/audio.primary.pipa.so
is absent from the source (only the dispatch-table reference exists), so it is
modelled from the spec as a fixed-pattern byte replacement whose replacement is
padded with null bytes to the pattern's length; for every input the output has
exactly the input's byte length. -/
theorem claim3_audio_primary_length (pat repl content : List UInt8)
    (hlen : repl.length ≤ pat.length) :
    (audioPrimaryRun pat repl content).length = content.length := by
  unfold audioPrimaryRun
  apply replaceAll_length
  simp only [List.length_append, List.length_replicate]
  omega

/-- C3 witness: the length invariant at a concrete library path pattern. -/
theorem claim3_witness :
    (audioPrimaryRun (strBytes "/vendor/lib/libfoo.so") (strBytes "/odm/libfoo.so")
        (strBytes "aa/vendor/lib/libfoo.sobb")).length
      = (strBytes "aa/vendor/lib/libfoo.sobb").length :=
  claim3_audio_primary_length _ _ _ (by decide)

/-- C4 counterexample: running the Android.mk update twice for the same
device and the same firmware entry yields a fragment in which the checksum
directive for that filename occurs twice inside the device block, refuting
the claim that no two directives in a block name the same firmware file. -/
theorem claim4_counterexample :
    countSub (radioLine "boot.img" "cafe1234").data
      (updateAndroidMk "xiaomi" "pipa"
        (some (updateAndroidMk "xiaomi" "pipa" none [("boot.img", "cafe1234")]))
        [("boot.img", "cafe1234")]) = 2 := by
  decide

/-- C4 (amended): for every firmware set whose filenames and checksums are
newline-free, re-running the Android.mk update for device pipa on the file
produced by a first run yields a fragment that still contains exactly one
device conditional line (the re-run inserts into the existing block rather
than creating a second one), while each firmware entry's checksum directive
line now occurs twice as often as in the firmware set -- in particular at
least twice -- so the directives are duplicated instead of the update being
idempotent. -/
theorem claim4_amended_rerun (entries : List (String × String))
    (hclean : ∀ e ∈ entries,
      ('\n' : Char) ∉ e.1.data ∧ ('\n' : Char) ∉ e.2.data) :
    lineCount (deviceCond "pipa")
        (updateAndroidMk "xiaomi" "pipa"
          (some (updateAndroidMk "xiaomi" "pipa" none entries)) entries) = 1 ∧
    ∀ fh ∈ entries,
      lineCount (directiveLine fh.1 fh.2)
          (updateAndroidMk "xiaomi" "pipa"
            (some (updateAndroidMk "xiaomi" "pipa" none entries)) entries)
        = 2 * (entries.map (fun e => directiveLine e.1 e.2)).count
            (directiveLine fh.1 fh.2) ∧
      1 ≤ (entries.map (fun e => directiveLine e.1 e.2)).count
            (directiveLine fh.1 fh.2) := by
  set D : List (List Char) := entries.map (fun e => directiveLine e.1 e.2) with hDdef
  set F : List Char := (D.map (fun l => l ++ ['\n'])).flatten with hFdef
  set c1t : List Char := updateAndroidMk "xiaomi" "pipa" none entries with hc1t
  have hDnl : ∀ l ∈ D, ('\n' : Char) ∉ l := by
    intro l hm
    rw [hDdef] at hm
    obtain ⟨e, he, rfl⟩ := List.mem_map.mp hm
    exact not_nl_directiveLine e.1 e.2 (hclean e he).1 (hclean e he).2
  have hc1 : c1t = (androidMkHeader "xiaomi" "pipa").data
      ++ (F ++ '\n' :: ("endif" : String).data) := by
    rw [hc1t]
    show freshAndroidMk "xiaomi" "pipa" entries = _
    unfold freshAndroidMk
    rw [hFdef, hDdef]
    simp only [String.data_append]
    rw [join_radioLines]
    simp [List.append_assoc]
  have hfindH : findSubAux (deviceCond "pipa")
      (androidMkHeader "xiaomi" "pipa").data 0 = some 146 := by decide
  have hfind : findSubAux (deviceCond "pipa") c1t 0 = some 146 := by
    rw [hc1]
    exact findSubAux_append_left _ _ _ 0 146 hfindH (by decide)
  have hsub : subIn (deviceCond "pipa") c1t = true := by
    rw [subIn_iff]
    by_contra hcon
    have h8 := (findSubAux_eq_none_iff (deviceCond "pipa") c1t 0).mpr hcon
    rw [hfind] at h8
    cases h8
  have hHdec : (androidMkHeader "xiaomi" "pipa").data
      = ("# Automatically generated file. DO NOT MODIFY\n#\n# This file is generated by device/xiaomi/pipa/extract-firmware.py\n\nLOCAL_PATH := $(call my-dir)\n\n" : String).data
        ++ (deviceCond "pipa" ++ ['\n', '\n']) := by decide
  have hc1' : c1t
      = (("# Automatically generated file. DO NOT MODIFY\n#\n# This file is generated by device/xiaomi/pipa/extract-firmware.py\n\nLOCAL_PATH := $(call my-dir)\n\n" : String).data
          ++ deviceCond "pipa")
        ++ (['\n', '\n'] ++ (F ++ '\n' :: ("endif" : String).data)) := by
    rw [hc1, hHdec]
    simp [List.append_assoc]
  have hlen174 : (("# Automatically generated file. DO NOT MODIFY\n#\n# This file is generated by device/xiaomi/pipa/extract-firmware.py\n\nLOCAL_PATH := $(call my-dir)\n\n" : String).data
      ++ deviceCond "pipa").length = 174 := by decide
  have htake : c1t.take 174
      = ("# Automatically generated file. DO NOT MODIFY\n#\n# This file is generated by device/xiaomi/pipa/extract-firmware.py\n\nLOCAL_PATH := $(call my-dir)\n\n" : String).data
        ++ deviceCond "pipa" := by
    rw [hc1']
    exact List.take_left' hlen174
  have hdrop : c1t.drop 174
      = ['\n', '\n'] ++ (F ++ '\n' :: ("endif" : String).data) := by
    rw [hc1']
    exact List.drop_left' hlen174
  have hendif : ∃ j, findSubAux ("endif".data) (c1t.drop 146) 146 = some j := by
    cases hop : findSubAux ("endif".data) (c1t.drop 146) 146 with
    | none =>
      exfalso
      apply (findSubAux_eq_none_iff _ _ _).mp hop
      have hdrop146 : c1t.drop 146
          = (deviceCond "pipa" ++ ['\n', '\n'])
            ++ (F ++ '\n' :: ("endif" : String).data) := by
        rw [hc1, hHdec, List.append_assoc]
        exact List.drop_left' (by decide)
      rw [hdrop146]
      have h1 : ("endif" : String).data <:+ (F ++ '\n' :: ("endif" : String).data) := by
        rw [show F ++ '\n' :: ("endif" : String).data
          = (F ++ ['\n']) ++ ("endif" : String).data from by simp]
        exact List.suffix_append _ _
      exact (h1.trans (List.suffix_append _ _)).isInfix
    | some j => exact ⟨j, rfl⟩
  obtain ⟨j, hj⟩ := hendif
  have hc2 : updateAndroidMk "xiaomi" "pipa" (some c1t) entries
      = c1t.take 174 ++ radioSection entries ++ c1t.drop 174 := by
    show (if subIn (deviceCond "pipa") c1t = true then
        match findSubAux (deviceCond "pipa") c1t 0 with
        | none => freshAndroidMk "xiaomi" "pipa" entries
        | some dp =>
          match findSubAux ("endif".data) (c1t.drop dp) dp with
          | none => freshAndroidMk "xiaomi" "pipa" entries
          | some _ =>
            c1t.take (dp + (deviceCond "pipa").length) ++ radioSection entries
              ++ c1t.drop (dp + (deviceCond "pipa").length)
      else freshAndroidMk "xiaomi" "pipa" entries) = _
    rw [if_pos hsub, hfind]
    simp only []
    rw [hj]
    simp only []
    rw [show 146 + (deviceCond "pipa").length = 174 from by decide]
  have hrs : radioSection entries = '\n' :: ('\n' :: F) := by
    unfold radioSection
    rw [hFdef, hDdef]
    simp only [String.data_append]
    rw [join_radioLines]
    rfl
  have htake' : c1t.take 174
      = ("# Automatically generated file. DO NOT MODIFY" : String).data
        ++ '\n' :: (("#" : String).data
        ++ '\n' :: (("# This file is generated by device/xiaomi/pipa/extract-firmware.py" : String).data
        ++ '\n' :: ('\n' :: (("LOCAL_PATH := $(call my-dir)" : String).data
        ++ '\n' :: ('\n' :: deviceCond "pipa"))))) := by
    rw [htake]
    decide
  have hlines : linesOf (updateAndroidMk "xiaomi" "pipa" (some c1t) entries)
      = ("# Automatically generated file. DO NOT MODIFY" : String).data
        :: ("#" : String).data
        :: ("# This file is generated by device/xiaomi/pipa/extract-firmware.py" : String).data
        :: [] :: ("LOCAL_PATH := $(call my-dir)" : String).data
        :: [] :: deviceCond "pipa"
        :: [] :: (D ++ [] :: [] :: (D ++ [[], ("endif" : String).data])) := by
    unfold linesOf
    rw [hc2, htake', hdrop, hrs, hFdef]
    exact splitOnChar_mk_shape '\n' _ _ _ _ _ _ D D (by decide) (by decide)
      (by decide) (by decide) (by decide) (by decide) hDnl hDnl
  have hdev0 : D.count (deviceCond "pipa") = 0 := by
    rw [List.count_eq_zero]
    intro hm
    rw [hDdef] at hm
    obtain ⟨e, he, hEq⟩ := List.mem_map.mp hm
    have h1 := directiveLine_head e.1 e.2
    rw [hEq] at h1
    exact absurd h1 (by decide)
  refine ⟨?_, ?_⟩
  · unfold lineCount
    rw [hlines]
    have ne1 : deviceCond "pipa"
        ≠ ("# Automatically generated file. DO NOT MODIFY" : String).data := by decide
    have ne2 : deviceCond "pipa" ≠ ("#" : String).data := by decide
    have ne3 : deviceCond "pipa"
        ≠ ("# This file is generated by device/xiaomi/pipa/extract-firmware.py" : String).data := by
      decide
    have ne4 : deviceCond "pipa" ≠ ([] : List Char) := by decide
    have ne5 : deviceCond "pipa" ≠ ("LOCAL_PATH := $(call my-dir)" : String).data := by decide
    have ne6 : deviceCond "pipa" ≠ ("endif" : String).data := by decide
    rw [List.count_cons_of_ne ne1, List.count_cons_of_ne ne2,
      List.count_cons_of_ne ne3, List.count_cons_of_ne ne4,
      List.count_cons_of_ne ne5, List.count_cons_of_ne ne4,
      List.count_cons_self, List.count_cons_of_ne ne4,
      List.count_append, hdev0, List.count_cons_of_ne ne4,
      List.count_cons_of_ne ne4, List.count_append, hdev0,
      List.count_cons_of_ne ne4]
    rw [show List.count (deviceCond "pipa") [("endif" : String).data] = 0 from by
      rw [List.count_eq_zero]
      intro hm
      exact ne6 (List.mem_singleton.mp hm)]
  · intro fh hfh
    have hmemD : directiveLine fh.1 fh.2 ∈ D := by
      rw [hDdef]
      exact List.mem_map_of_mem _ hfh
    have hhead := directiveLine_head fh.1 fh.2
    have hnl : ∀ y : List Char, y.head? ≠ some '$' → directiveLine fh.1 fh.2 ≠ y := by
      intro y hy hEq
      rw [hEq] at hhead
      exact hy hhead
    refine ⟨?_, ?_⟩
    · unfold lineCount
      rw [hlines]
      rw [List.count_cons_of_ne (hnl _ (by decide)),
        List.count_cons_of_ne (hnl _ (by decide)),
        List.count_cons_of_ne (hnl _ (by decide)),
        List.count_cons_of_ne (hnl _ (by decide)),
        List.count_cons_of_ne (hnl _ (by decide)),
        List.count_cons_of_ne (hnl _ (by decide)),
        List.count_cons_of_ne (hnl _ (by decide)),
        List.count_cons_of_ne (hnl _ (by decide)),
        List.count_append,
        List.count_cons_of_ne (hnl _ (by decide)),
        List.count_cons_of_ne (hnl _ (by decide)),
        List.count_append,
        List.count_cons_of_ne (hnl _ (by decide))]
      rw [show List.count (directiveLine fh.1 fh.2) [("endif" : String).data] = 0 from by
        rw [List.count_eq_zero]
        intro hm
        exact hnl _ (by decide) (List.mem_singleton.mp hm)]
      omega
    · have := List.count_pos_iff.mpr hmemD
      omega

/-- C4 witness: the two-run invariants at the single-entry firmware set. -/
theorem claim4_witness :
    lineCount (deviceCond "pipa")
      (updateAndroidMk "xiaomi" "pipa"
        (some (updateAndroidMk "xiaomi" "pipa" none [("abc.img", "deadbeef")]))
        [("abc.img", "deadbeef")]) = 1 :=
  (claim4_amended_rerun [("abc.img", "deadbeef")] (by decide)).1

/-- C5 counterexample: when the newly derived partition names themselves
contain a repeated name that is not yet listed, the merge keeps both copies,
so the claim that the merge never introduces a duplicate for every list of
newly derived names is false. -/
theorem claim5_counterexample :
    ¬ (mergePartitions ["boot"] ["modem", "modem"]).Nodup := by
  decide

/-- C5 (amended): provided the existing list and the newly derived list are
each duplicate-free, the merge preserves every prior entry, yields a
duplicate-free list, and whenever at least one genuinely new name survives
the filter the resulting list is sorted in Python string order (when none
survives the file is left untouched, so the order is whatever it already
was). -/
theorem claim5_amended_merge (existing newNames : List String)
    (hex : existing.Nodup) (hnew : newNames.Nodup) :
    (∀ p ∈ existing, p ∈ mergePartitions existing newNames) ∧
    (mergePartitions existing newNames).Nodup ∧
    ((newNames.filter (fun p => !existing.contains p)).isEmpty = false →
      SortedPy (mergePartitions existing newNames)) := by
  unfold mergePartitions
  by_cases h : (newNames.filter (fun p => !existing.contains p)).isEmpty = true
  · rw [if_pos h]
    refine ⟨fun p hp => hp, hex, fun hfalse => ?_⟩
    rw [h] at hfalse
    cases hfalse
  · rw [if_neg h]
    have hperm :=
      pySorted_perm (existing ++ newNames.filter (fun p => !existing.contains p))
    refine ⟨?_, ?_, fun _ => pySorted_sorted _⟩
    · intro p hp
      exact hperm.mem_iff.mpr (List.mem_append_left _ hp)
    · rw [hperm.nodup_iff, List.nodup_append]
      refine ⟨hex, hnew.filter _, ?_⟩
      intro a ha hafil
      have hnot : ¬ a ∈ existing := by
        simpa using (List.mem_filter.mp hafil).2
      exact hnot ha

/-- C5 witness: the merge invariants at the concrete boot/radio + modem
scenario. -/
theorem claim5_witness : (mergePartitions ["boot", "radio"] ["modem"]).Nodup :=
  (claim5_amended_merge ["boot", "radio"] ["modem"] (by decide) (by decide)).2.1

/-- C6 counterexample: CameraQcomFixup is not idempotent on every file.  On a
file whose bytes read st_license.list_license.lic, the first run rewrites the
single occurrence of the pattern and thereby recreates the pattern across the
replacement boundary, so a second run changes the file again. -/
theorem claim6_counterexample :
    cameraQcomPatch (cameraQcomPatch (strBytes "st_license.list_license.lic")) ≠
      cameraQcomPatch (strBytes "st_license.list_license.lic") := by
  decide

/-- C6 (amended): CameraPostprocFixup's direct binary patch is idempotent on
every file (its replacement bytes are disjoint from its pattern bytes, so a
replacement can never recreate the pattern); CameraQcomFixup and
BatterySecretRcFixup are idempotent exactly on the files whose once-patched
output no longer contains the pattern, which can fail (see the
counterexample); the WatermarkFixup dependency state is idempotent. -/
theorem claim6_amended_idempotency :
    (∀ s, cameraPostprocDirect (cameraPostprocDirect s) = cameraPostprocDirect s) ∧
    (∀ s, ¬ qcomOrigPattern <:+: cameraQcomPatch s →
      cameraQcomPatch (cameraQcomPatch s) = cameraQcomPatch s) ∧
    (∀ s, ¬ seclabelLine <:+: batterySecretPatch s →
      batterySecretPatch (batterySecretPatch s) = batterySecretPatch s) ∧
    (∀ b, watermarkEnsureShim (watermarkEnsureShim b) = watermarkEnsureShim b) := by
  refine ⟨?_, ?_, ?_, ?_⟩
  · intro s
    have key : ∀ t, ¬ postprocPattern <:+: t → cameraPostprocDirect t = t := by
      intro t ht
      unfold cameraPostprocDirect
      rw [if_neg (fun hb => ht ((subIn_iff _ _).mp hb))]
    by_cases h : subIn postprocPattern s = true
    · have hout : cameraPostprocDirect s = replaceAll postprocPattern postprocReplacement s := by
        unfold cameraPostprocDirect
        rw [if_pos h]
      rw [hout]
      exact key _ (not_sub_replaceAll _ _ (by decide) (by decide) (by decide) s)
    · have hout : cameraPostprocDirect s = s := by
        unfold cameraPostprocDirect
        rw [if_neg h]
      rw [hout, hout]
  · intro s hno
    have halt : ¬ qcomAltPattern <:+: cameraQcomPatch s := by
      have he : qcomAltPattern = qcomOrigPattern := by decide
      rw [he]
      exact hno
    set t := cameraQcomPatch s with ht
    show cameraQcomPatch t = t
    unfold cameraQcomPatch
    rw [if_neg (fun hb => hno ((subIn_iff _ _).mp hb)),
      if_neg (fun hb => halt ((subIn_iff _ _).mp hb))]
  · intro s hno
    exact replaceAll_of_not_sub _ _ _ hno
  · intro b
    cases b <;> rfl

/-- C6 witness: a second CameraQcomFixup run is a no-op on a file whose first
run's output is pattern-free. -/
theorem claim6_witness :
    cameraQcomPatch (cameraQcomPatch (strBytes "hello")) =
      cameraQcomPatch (strBytes "hello") :=
  claim6_amended_idempotency.2.1 (strBytes "hello") (by decide)

/-- C7: the firmware-list parse skips blank lines and comment lines and maps
every other line to the basename of its first whitespace-delimited token; in
particular the four-line scenario from the spec yields exactly abc.img and
def.img. -/
theorem claim7_firmware_list_parse :
    parseFirmwareList
        ["abc.img".data, "# comment".data, "".data, "def.img path/ignored".data]
      = ["abc.img".data, "def.img".data] ∧
    (∀ line : List Char,
      pyStrip line = [] ∨ (pyStrip line).head? = some '#' →
        parseFirmwareLine line = none) ∧
    (∀ (line t : List Char) (ts : List (List Char)),
      pyStrip line ≠ [] → (pyStrip line).head? ≠ some '#' →
      pySplitWs (pyStrip line) = t :: ts →
        parseFirmwareLine line = some (pyBasename t)) := by
  refine ⟨by decide, ?_, ?_⟩
  · intro line h
    unfold parseFirmwareLine
    rcases h with h | h
    · simp [h]
    · simp [h]
  · intro line t ts h1 h2 h3
    unfold parseFirmwareLine
    have hbeq : ((pyStrip line).head? == some '#') = false := by
      rw [beq_eq_false_iff_ne]
      exact h2
    have hemp : (pyStrip line).isEmpty = false := by
      cases hl : pyStrip line
      · exact absurd hl h1
      · rfl
    simp [hemp, hbeq, h3]

/-- C7 witness: the comment line from the scenario parses to nothing. -/
theorem claim7_witness : parseFirmwareLine "# comment".data = none :=
  claim7_firmware_list_parse.2.1 "# comment".data (Or.inr (by decide))

/-- C8: merging the new partition name modem into the existing list boot,
radio reproduces the parsed existing entries and emits the section with the
list boot, modem, radio, a continuation backslash after every entry except
the last, and no trailing marker after radio. -/
theorem claim8_partition_merge_scenario :
    parseExistingPartitions "\n    boot \\\n    radio".data = ["boot", "radio"] ∧
    mergedSection ["boot", "radio"] ["modem"] =
      "AB_OTA_PARTITIONS += \\\n    boot \\\n    modem \\\n    radio".data := by
  exact ⟨by decide, by decide⟩

/-- C9: CameraQcomFixup's primary pattern and replacement are both 14 bytes,
and the patch preserves the byte length of every input file. -/
theorem claim9_qcom_length_preserved :
    qcomOrigPattern.length = 14 ∧ qcomReplacement.length = 14 ∧
    (∀ content, (cameraQcomPatch content).length = content.length) := by
  refine ⟨by decide, by decide, ?_⟩
  intro content
  unfold cameraQcomPatch
  by_cases h1 : subIn qcomOrigPattern content = true
  · rw [if_pos h1]
    exact replaceAll_length _ _ (by decide) content
  · rw [if_neg h1]
    by_cases h2 : subIn qcomAltPattern content = true
    · rw [if_pos h2]
      exact replaceAll_length _ _ (by decide) content
    · rw [if_neg h2]

/-- C10: the --ignore-missing-dolby flag has no observable effect: declared
with action store_true and default True, its destination is True whether or
not the flag is passed, so the FileNotFoundError handler behaves identically
in both cases. -/
theorem claim10_dolby_flag_no_effect :
    ∀ (present1 present2 : Bool) (errMsg : List Char)
      (sectionGiven quiet writeMakefilesOk : Bool),
      ignoreMissingDolbyValue present1 = ignoreMissingDolbyValue present2 ∧
      fnfHandler (ignoreMissingDolbyValue present1) errMsg sectionGiven quiet
          writeMakefilesOk
        = fnfHandler (ignoreMissingDolbyValue present2) errMsg sectionGiven quiet
          writeMakefilesOk := by
  intro p1 p2 e sg q wm
  cases p1 <;> cases p2 <;> exact ⟨rfl, rfl⟩

end Pipa
